import Mathlib

/-!
Verification of the CarreraTrackDesign track generator
(`src/carreratrackdesign/TrackGenerator.py`) against its natural-language
specification.

The Python code is shallowly embedded as follows.

* Track maps (Python strings over `'L'`, `'R'`, `'S'`) become `List Char`.
* All float arithmetic in the generator stays inside the ring `ℚ[√3]`:
  the orientation is always an integer multiple of `π/3`, so
  `cos`/`sin` of the orientation take values in `{0, ±1/2, ±1, ±√3/2}`.
  The embedding therefore tracks the orientation as the integer `k`
  (the real orientation being `k·π/3`) and positions as elements of
  `ℚ[√3]`, represented by the structure `Q3` below.  Floating point
  rounding is abstracted away: numbers are modelled as exact reals,
  which is the reading used throughout the specification.
* Python `%` and `//` on integers agree with Lean's `Int` `%` and `/`
  (both are Euclidean for positive divisors).
* The wall-clock time budget (`max_time_per_split`) is modelled as never
  expiring: the `time.time() - start_time > max_time_per_split` test is
  taken to be `False` at every node.
* Python's `set` is modelled as a duplicate-free `List` built by
  `setAdd`; only membership and length are ever used.
* `set.union(*all_unique_tracks)` raises a `TypeError` when the list of
  per-split sets is empty; `generate_unique_tracks` therefore returns an
  `Option`, with `none` standing for that exception.
-/

namespace Carrera

/-- Elements `a + b·√3` of the ring `ℚ[√3]`.  Every quantity computed by
the generator's geometry lives in this ring. -/
structure Q3 where
  a : ℚ
  b : ℚ
deriving DecidableEq, Repr

namespace Q3

instance : Zero Q3 := ⟨⟨0, 0⟩⟩
instance : One Q3 := ⟨⟨1, 0⟩⟩
instance : Add Q3 := ⟨fun u v => ⟨u.a + v.a, u.b + v.b⟩⟩
instance : Neg Q3 := ⟨fun u => ⟨-u.a, -u.b⟩⟩
instance : Sub Q3 := ⟨fun u v => ⟨u.a - v.a, u.b - v.b⟩⟩
instance : Mul Q3 := ⟨fun u v => ⟨u.a * v.a + 3 * (u.b * v.b), u.a * v.b + u.b * v.a⟩⟩

/-- Embed a rational number into `ℚ[√3]`. -/
def ofRat (q : ℚ) : Q3 := ⟨q, 0⟩

@[simp] theorem zero_a : (0 : Q3).a = 0 := rfl
@[simp] theorem zero_b : (0 : Q3).b = 0 := rfl
@[simp] theorem add_a (u v : Q3) : (u + v).a = u.a + v.a := rfl
@[simp] theorem add_b (u v : Q3) : (u + v).b = u.b + v.b := rfl
@[simp] theorem sub_a (u v : Q3) : (u - v).a = u.a - v.a := rfl
@[simp] theorem sub_b (u v : Q3) : (u - v).b = u.b - v.b := rfl
@[simp] theorem neg_a (u : Q3) : (-u).a = -u.a := rfl
@[simp] theorem neg_b (u : Q3) : (-u).b = -u.b := rfl
@[simp] theorem mul_a (u v : Q3) : (u * v).a = u.a * v.a + 3 * (u.b * v.b) := rfl
@[simp] theorem mul_b (u v : Q3) : (u * v).b = u.a * v.b + u.b * v.a := rfl
@[simp] theorem ofRat_a (q : ℚ) : (ofRat q).a = q := rfl
@[simp] theorem ofRat_b (q : ℚ) : (ofRat q).b = 0 := rfl
@[simp] theorem one_a : (1 : Q3).a = 1 := rfl
@[simp] theorem one_b : (1 : Q3).b = 0 := rfl

theorem ext_ab : ∀ {u v : Q3}, u.a = v.a → u.b = v.b → u = v := by
  rintro ⟨a1, b1⟩ ⟨a2, b2⟩ ha hb
  cases ha; cases hb; rfl

/-- Interpretation of a `Q3` element as the real number `a + b·√3`. -/
noncomputable def toReal (v : Q3) : ℝ := (v.a : ℝ) + (v.b : ℝ) * Real.sqrt 3

theorem sqrt3_pos : (0:ℝ) < Real.sqrt 3 := Real.sqrt_pos.mpr (by norm_num)

theorem sqrt3_mul_self : Real.sqrt 3 * Real.sqrt 3 = 3 :=
  Real.mul_self_sqrt (by norm_num)

theorem toReal_add (u v : Q3) : (u + v).toReal = u.toReal + v.toReal := by
  simp only [toReal, add_a, add_b]; push_cast; ring

theorem toReal_sub (u v : Q3) : (u - v).toReal = u.toReal - v.toReal := by
  simp only [toReal, sub_a, sub_b]; push_cast; ring

theorem toReal_mul (u v : Q3) : (u * v).toReal = u.toReal * v.toReal := by
  simp only [toReal, mul_a, mul_b]
  push_cast
  linear_combination (-((u.b : ℝ) * (v.b : ℝ))) * sqrt3_mul_self

theorem toReal_zero : (0 : Q3).toReal = 0 := by simp [toReal]

theorem toReal_ofRat (q : ℚ) : (ofRat q).toReal = (q : ℝ) := by simp [toReal]

/-- Decision procedure for `a + b·√3 < c` with `c` rational:
sign analysis plus squaring. -/
def ltRat (v : Q3) (c : ℚ) : Bool :=
  let d := c - v.a
  if v.b = 0 then decide (0 < d)
  else if 0 < v.b then decide (0 < d) && decide (3 * v.b ^ 2 < d ^ 2)
  else decide (0 < d) || decide (d ^ 2 < 3 * v.b ^ 2)

theorem sq_sqrt3 : Real.sqrt 3 ^ 2 = 3 := Real.sq_sqrt (by norm_num)

/-- Soundness of `ltRat`: if it returns `true` the real inequality holds. -/
theorem ltRat_lt {v : Q3} {c : ℚ} (h : ltRat v c = true) : v.toReal < (c : ℝ) := by
  unfold ltRat at h
  by_cases hb0 : v.b = 0
  · rw [if_pos hb0, decide_eq_true_eq] at h
    have h' : (v.a : ℝ) < (c : ℝ) := by exact_mod_cast sub_pos.mp h
    simpa [toReal, hb0] using h'
  · rw [if_neg hb0] at h
    by_cases hbpos : 0 < v.b
    · rw [if_pos hbpos, Bool.and_eq_true, decide_eq_true_eq, decide_eq_true_eq] at h
      obtain ⟨hd, hsq⟩ := h
      have hd' : (0:ℝ) < (c:ℝ) - v.a := by exact_mod_cast hd
      have hsq' : 3 * (v.b:ℝ) ^ 2 < ((c:ℝ) - v.a) ^ 2 := by exact_mod_cast hsq
      have key : (v.b:ℝ) * Real.sqrt 3 < (c:ℝ) - v.a := by
        apply lt_of_pow_lt_pow_left₀ 2 (le_of_lt hd')
        have hE : ((v.b:ℝ) * Real.sqrt 3) ^ 2 = 3 * (v.b:ℝ) ^ 2 := by
          rw [mul_pow, sq_sqrt3]; ring
        rw [hE]; exact hsq'
      simp only [toReal]; linarith
    · rw [if_neg hbpos, Bool.or_eq_true, decide_eq_true_eq, decide_eq_true_eq] at h
      have hbneg : (v.b:ℝ) < 0 := by
        have hbn : v.b < 0 := lt_of_le_of_ne (not_lt.mp hbpos) hb0
        exact_mod_cast hbn
      have hEneg : (v.b:ℝ) * Real.sqrt 3 < 0 := mul_neg_of_neg_of_pos hbneg sqrt3_pos
      rcases h with hd | hsq
      · have hd' : (0:ℝ) < (c:ℝ) - v.a := by exact_mod_cast hd
        simp only [toReal]; linarith
      · have hsq' : ((c:ℝ) - v.a) ^ 2 < 3 * (v.b:ℝ) ^ 2 := by exact_mod_cast hsq
        have hEnn : (0:ℝ) ≤ -(v.b:ℝ) * Real.sqrt 3 :=
          mul_nonneg (by linarith) (Real.sqrt_nonneg 3)
        have key : -((c:ℝ) - v.a) < -(v.b:ℝ) * Real.sqrt 3 := by
          apply lt_of_pow_lt_pow_left₀ 2 hEnn
          have hE : (-(v.b:ℝ) * Real.sqrt 3) ^ 2 = 3 * (v.b:ℝ) ^ 2 := by
            rw [mul_pow, sq_sqrt3]; ring
          rw [hE, neg_pow]
          simpa using hsq'
        simp only [toReal]; linarith

end Q3

/-- Exact value of `cos (k·π/3)` as an element of `ℚ[√3]`
(period-6 table; the `b`-component is always `0`). -/
def cosK (k : ℤ) : Q3 :=
  if k % 6 = 0 then ⟨1, 0⟩
  else if k % 6 = 1 then ⟨1/2, 0⟩
  else if k % 6 = 2 then ⟨-1/2, 0⟩
  else if k % 6 = 3 then ⟨-1, 0⟩
  else if k % 6 = 4 then ⟨-1/2, 0⟩
  else ⟨1/2, 0⟩

/-- Exact value of `sin (k·π/3)` as an element of `ℚ[√3]`
(period-6 table; the `a`-component is always `0`). -/
def sinK (k : ℤ) : Q3 :=
  if k % 6 = 0 then ⟨0, 0⟩
  else if k % 6 = 1 then ⟨0, 1/2⟩
  else if k % 6 = 2 then ⟨0, 1/2⟩
  else if k % 6 = 3 then ⟨0, 0⟩
  else if k % 6 = 4 then ⟨0, -1/2⟩
  else ⟨0, -1/2⟩

/-- Numeric configuration stored by `TrackGenerator.__init__`.
`track_width` is omitted (it is only used by the plotting routine) and
`orientation_tolerance` is fixed to the generator's default `0.01`
(see `lap_completed` below); the remaining fields are the constructor
arguments used by the search. -/
structure Config where
  turn_section_radius : ℚ
  straight_section_length : ℚ
  lap_tolerance : ℚ
deriving DecidableEq, Repr

/-- Derived field `minimum_track_intersection_distance =
straight_section_length * 0.6` from `__init__`. -/
def Config.minimum_track_intersection_distance (C : Config) : ℚ :=
  C.straight_section_length * (6/10)

/-- Default constructor arguments: radius `0.3`, straight length `0.345`,
lap tolerance `0.05`. -/
def defaultConfig : Config := ⟨3/10, 69/200, 1/20⟩

/-- Search state of the pose-update loop: orientation (as the integer
number of `π/3` units) and position in `ℚ[√3] × ℚ[√3]`. -/
structure Pose where
  k : ℤ
  x : Q3
  y : Q3
deriving DecidableEq, Repr

/-- One iteration of the loop body of `lap_completed`: the per-piece
pose update, transcribed literally (`orientation` is the updated `k`).
Characters other than `'L'`, `'R'`, `'S'` leave the state unchanged,
as in the Python `if`/`elif` chain. -/
def lapStep (C : Config) (p : Pose) (sectionChar : Char) : Pose :=
  if sectionChar = 'L' then
    let orientation := p.k + 1
    ⟨orientation,
      p.x + Q3.ofRat C.turn_section_radius * (cosK orientation - cosK (orientation - 1)),
      p.y + Q3.ofRat C.turn_section_radius * (sinK orientation - sinK (orientation - 1))⟩
  else if sectionChar = 'R' then
    let orientation := p.k - 1
    ⟨orientation,
      p.x - Q3.ofRat C.turn_section_radius * (cosK orientation - cosK (orientation + 1)),
      p.y - Q3.ofRat C.turn_section_radius * (sinK orientation - sinK (orientation + 1))⟩
  else if sectionChar = 'S' then
    ⟨p.k,
      p.x - Q3.ofRat C.straight_section_length * sinK p.k,
      p.y + Q3.ofRat C.straight_section_length * cosK p.k⟩
  else p

/-- Final pose after replaying a whole track map from the origin,
as in the loop of `lap_completed`. -/
def lapPose (C : Config) (track_map : List Char) : Pose :=
  track_map.foldl (lapStep C) ⟨0, 0, 0⟩

/-- Decision procedure for `Real.sqrt v < t` (`v` a nonnegative `Q3`
value, `t` rational): true iff `0 < t` and `v < t²`. -/
def sqrtLtRat (v : Q3) (t : ℚ) : Bool :=
  decide (0 < t) && Q3.ltRat v (t * t)

/-- Embedding of `lap_completed`:
`(x² + y²) ** 0.5 < lap_tolerance and abs(orientation % (2π)) < 0.01`.
Since the orientation is exactly `k·π/3`, `orientation % (2π)` equals
`(k % 6)·π/3`, which is either `0` or at least `π/3 > 0.01`; with the
default `orientation_tolerance = 0.01` the second conjunct is exactly
`k % 6 == 0` (theorem `orientation_check_bridge` below). -/
def lap_completed (C : Config) (track_map : List Char) : Bool :=
  let p := lapPose C track_map
  sqrtLtRat (p.x * p.x + p.y * p.y) C.lap_tolerance && (p.k % 6 == 0)

/-- One iteration of the loop body of `track_coordinates`, transcribed
literally (its per-piece displacement formulas differ syntactically from
those of `lap_completed`). -/
def coordStep (C : Config) (p : Pose) (sectionChar : Char) : Pose :=
  if sectionChar = 'L' then
    let orientation := p.k + 1
    ⟨orientation,
      p.x + (-(Q3.ofRat C.turn_section_radius) * (1 - cosK orientation)
             + Q3.ofRat C.turn_section_radius * (1 - cosK (orientation - 1))),
      p.y + (Q3.ofRat C.turn_section_radius * sinK orientation
             - Q3.ofRat C.turn_section_radius * sinK (orientation - 1))⟩
  else if sectionChar = 'R' then
    let orientation := p.k - 1
    ⟨orientation,
      p.x + (Q3.ofRat C.turn_section_radius * (1 - cosK orientation)
             - Q3.ofRat C.turn_section_radius * (1 - cosK (orientation + 1))),
      p.y - (Q3.ofRat C.turn_section_radius * sinK orientation
             - Q3.ofRat C.turn_section_radius * sinK (orientation + 1))⟩
  else if sectionChar = 'S' then
    ⟨p.k,
      p.x + -(Q3.ofRat C.straight_section_length) * sinK p.k,
      p.y + Q3.ofRat C.straight_section_length * cosK p.k⟩
  else p

/-- Tail of the vertex list produced by `track_coordinates`: one point
appended after each section (for every character, recognized or not),
starting from pose `p`. -/
def coordPoints (C : Config) : Pose → List Char → List (Q3 × Q3)
  | _, [] => []
  | p, c :: rest =>
    let p' := coordStep C p c
    (p'.x, p'.y) :: coordPoints C p' rest

/-- Embedding of `track_coordinates`: the vertex list starting with the
origin, one further point per section. -/
def track_coordinates (C : Config) (track_map : List Char) : List (Q3 × Q3) :=
  ((0 : Q3), (0 : Q3)) :: coordPoints C ⟨0, 0, 0⟩ track_map

/-- Python `range(a, b)` over integers. -/
def pyRange (a b : ℤ) : List ℤ :=
  (List.range (b - a).toNat).map (fun i => a + (i : ℤ))

/-- Python `n * "c"` (string repetition clamps nonpositive counts to the
empty string). -/
def pyRepl (n : ℤ) (c : Char) : List Char :=
  List.replicate n.toNat c

/-- Embedding of `generate_turn_splits`:
`[(left, T - left) for left in range(T // 2 + 1, T + 1)]`.
(The loop variable is called `left` in the source, but the caller
unpacks the first component as `number_of_right_sections`.) -/
def generate_turn_splits (number_of_turn_sections : ℤ) : List (ℤ × ℤ) :=
  (pyRange (number_of_turn_sections / 2 + 1) (number_of_turn_sections + 1)).map
    (fun left => (left, number_of_turn_sections - left))

/-- Squared Euclidean distance between two `ℚ[√3]` points. -/
def sqDist (p q : Q3 × Q3) : Q3 :=
  (p.1 - q.1) * (p.1 - q.1) + (p.2 - q.2) * (p.2 - q.2)

/-- Embedding of `check_min_distance_to_self`: `True` iff no two distinct
vertices are closer than `minimum_track_intersection_distance`.  The
source computes, for each point, the minimum distance to all others and
fails when it is below the threshold, which is the same condition pair
by pair.  (On lists with fewer than two points the source would raise a
`ValueError` from `min([])`; the model returns `true`, and no run
examined below ever evaluates the check on such a list.) -/
def check_min_distance_to_self (C : Config) : List (Q3 × Q3) → Bool
  | [] => true
  | p :: rest =>
    (rest.all fun q =>
      !(sqrtLtRat (sqDist p q) C.minimum_track_intersection_distance)) &&
      check_min_distance_to_self C rest

/-- Sign of `a + b·√3` as an integer in `{-1, 0, 1}`. -/
def Q3.sign (v : Q3) : ℤ :=
  if 0 ≤ v.a then
    if 0 ≤ v.b then (if v.a = 0 ∧ v.b = 0 then 0 else 1)
    else if 3 * v.b ^ 2 < v.a ^ 2 then 1
    else if v.a ^ 2 < 3 * v.b ^ 2 then -1
    else 0
  else
    if v.b ≤ 0 then -1
    else if v.a ^ 2 < 3 * v.b ^ 2 then 1
    else if 3 * v.b ^ 2 < v.a ^ 2 then -1
    else 0

/-- Orientation sign of the ordered triple of points `o`, `p`, `q`:
the sign of the cross product `(p - o) × (q - o)`. -/
def orientSign (o p q : Q3 × Q3) : ℤ :=
  Q3.sign ((p.1 - o.1) * (q.2 - o.2) - (p.2 - o.2) * (q.1 - o.1))

/-- Componentwise interval test: is `c` inside the bounding box of the
segment `[p, q]`?  (`Q3.sign` of differences supplies the order.) -/
def inBox (p q c : Q3 × Q3) : Bool :=
  let lo1 := Q3.sign (c.1 - p.1) * Q3.sign (c.1 - q.1)
  let lo2 := Q3.sign (c.2 - p.2) * Q3.sign (c.2 - q.2)
  decide (lo1 ≤ 0) && decide (lo2 ≤ 0)

/-- Point `c` lies on the closed segment `[p, q]`. -/
def onSegment (p q c : Q3 × Q3) : Bool :=
  (orientSign p q c == 0) && inBox p q c

/-- Closed segments `[p₁, p₂]` and `[q₁, q₂]` have a common point
(standard orientation test plus collinear endpoint cases). -/
def segmentsMeet (p1 p2 q1 q2 : Q3 × Q3) : Bool :=
  let o1 := orientSign p1 p2 q1
  let o2 := orientSign p1 p2 q2
  let o3 := orientSign q1 q2 p1
  let o4 := orientSign q1 q2 p2
  (decide (o1 * o2 < 0) && decide (o3 * o4 < 0)) ||
    onSegment p1 p2 q1 || onSegment p1 p2 q2 ||
    onSegment q1 q2 p1 || onSegment q1 q2 p2

/-- Modelled from the spec: the semantics of `check_self_intersection`
is `shapely.geometry.LineString(coordinates).is_simple`, an external
library call whose code is not part of this repository.  Following
§4.1 of the specification ("it passes iff the polyline is simple (no
two non-adjacent segments cross, no segment self-overlaps)"), the
vertex list is treated as a polyline; every pair of non-adjacent
segments must be disjoint, and adjacent segments may share only their
common endpoint (the extra endpoint of either may not lie on the other
segment). -/
def check_self_intersection (coordinates : List (Q3 × Q3)) : Bool :=
  let n := coordinates.length
  let pt := fun i => coordinates.getD i (0, 0)
  (List.range (n - 1)).all fun i =>
    (List.range (n - 1)).all fun j =>
      if i < j then
        if j = i + 1 then
          !(orientSign (pt i) (pt (i+1)) (pt (j+1)) == 0 &&
            (inBox (pt i) (pt (i+1)) (pt (j+1)) || inBox (pt j) (pt (j+1)) (pt i)))
        else
          !(segmentsMeet (pt i) (pt (i+1)) (pt j) (pt (j+1)))
      else true

/-- Python `set.add` on the list model: append if not already present. -/
def setAdd (t : List Char) (acc : List (List Char)) : List (List Char) :=
  if t ∈ acc then acc else acc ++ [t]

/-- Per-split search parameters captured by the closure `backtrack` in
`generate_unique_tracks`.  `check_self_intersection_oracle` abstracts
the shapely-based test (instantiated with `check_self_intersection`
above for concrete runs). -/
structure SearchCfg where
  geo : Config
  allow_intersections : Bool
  maximum_number_of_tracks : ℤ
  check_self_intersection_oracle : List (Q3 × Q3) → Bool
  consecutive_turn_condition : List Char
  consecutive_straight_condition : List Char

/-- Embedding of the recursive closure `backtrack`.  The accumulating
set `tracks_for_split` is threaded explicitly; the three iterations of
`for segment, count in segment_counts_left.items()` (insertion order
`'R'`, `'L'`, `'S'`) are unrolled, each preceded by the result-cap
check, exactly as in the source.  The wall-clock check at the head of
the body is modelled as never firing.  Each recursive call decrements
one strictly positive budget, so the recursion depth is bounded by the
total remaining budget; the structural `fuel` argument makes this
explicit and is initialized in `tracks_for_split` to total budget plus
one, which keeps it positive at every reachable node (so the `fuel = 0`
branch is dead code; see `backtrack_fuel_congr`). -/
def backtrack (S : SearchCfg) : (fuel : ℕ) → (track_so_far : List Char) →
    (cR cL cS : ℤ) → (acc : List (List Char)) → List (List Char)
  | 0, _, _, _, _, acc => acc
  | fuel + 1, track_so_far, cR, cL, cS, acc =>
    if 0 < track_so_far.length ∧ lap_completed S.geo track_so_far = true ∧
        (S.allow_intersections = true ∨
          S.check_self_intersection_oracle
            (track_coordinates S.geo track_so_far.dropLast) = true) ∧
        (S.allow_intersections = true ∨
          check_min_distance_to_self S.geo
            (track_coordinates S.geo track_so_far.dropLast) = true) then
      setAdd track_so_far acc
    else
      if S.maximum_number_of_tracks ≤ (acc.length : ℤ) then acc else
      let acc1 :=
        if 0 < cR ∧ ¬ S.consecutive_turn_condition <:+: track_so_far ∧
            ¬ S.consecutive_straight_condition <:+: track_so_far then
          backtrack S fuel (track_so_far ++ ['R']) (cR - 1) cL cS acc
        else acc
      if S.maximum_number_of_tracks ≤ (acc1.length : ℤ) then acc1 else
      let acc2 :=
        if 0 < cL ∧ ¬ S.consecutive_turn_condition <:+: track_so_far ∧
            ¬ S.consecutive_straight_condition <:+: track_so_far then
          backtrack S fuel (track_so_far ++ ['L']) cR (cL - 1) cS acc1
        else acc1
      if S.maximum_number_of_tracks ≤ (acc2.length : ℤ) then acc2 else
      if 0 < cS ∧ ¬ S.consecutive_turn_condition <:+: track_so_far ∧
          ¬ S.consecutive_straight_condition <:+: track_so_far then
        backtrack S fuel (track_so_far ++ ['S']) cR cL (cS - 1) acc2
      else acc2

/-- Forbidden straight run `consecutive_straight_condition =
(math.floor(segments['S'] / 2) + 1) * "S"`. -/
def straightRunForbidden (segS : ℤ) : List Char :=
  pyRepl (segS / 2 + 1) 'S'

/-- Forbidden turn run `consecutive_turn_condition`: `⌊majority/2⌋ + 1`
repetitions of the majority turn direction of the split (`'R'` when
`number_of_right_sections > number_of_left_sections`, else `'L'`). -/
def turnRunForbidden (segR segL : ℤ) : List Char :=
  if segL < segR then pyRepl (segR / 2 + 1) 'R'
  else pyRepl (segL / 2 + 1) 'L'

/-- One iteration of the `for number_of_right_sections,
number_of_left_sections in turn_splits` loop of
`generate_unique_tracks`: remaining budgets after the starting
sequence, feasibility test, forbidden-run strings and the `backtrack`
call (starting from an empty per-split set).  `siOracle` abstracts the
shapely-based self-intersection test. -/
def tracks_for_split (C : Config) (siOracle : List (Q3 × Q3) → Bool)
    (allow_intersections : Bool) (maximum_number_of_tracks : ℤ)
    (number_of_straight_sections : ℤ) (starting_sequence : List Char)
    (number_of_right_sections number_of_left_sections : ℤ) :
    List (List Char) :=
  let segR := number_of_right_sections
  let segL := number_of_left_sections
  let segS := number_of_straight_sections
  let initR := segR - (starting_sequence.count 'R' : ℤ)
  let initL := segL - (starting_sequence.count 'L' : ℤ)
  let initS := segS - (starting_sequence.count 'S' : ℤ)
  if initR < 0 ∨ initL < 0 ∨ initS < 0 then []
  else
    backtrack
      ⟨C, allow_intersections, maximum_number_of_tracks, siOracle,
        turnRunForbidden segR segL, straightRunForbidden segS⟩
      (initR.toNat + initL.toNat + initS.toNat + 1)
      starting_sequence initR initL initS []

/-- Membership union of a list of sets (in the list model), as built by
`set.union(*all_unique_tracks)` on a nonempty argument list. -/
def unionSets (first : List (List Char)) (rest : List (List (List Char))) :
    List (List Char) :=
  rest.foldl (fun u part => part.foldl (fun u2 x => setAdd x u2) u) first

/-- Embedding of `generate_unique_tracks`.  The result is the final
value of `unique_track_set` (cleared at entry), or `none` when the call
raises: with an empty `turn_splits` list, `set.union(*[])` is a
`TypeError`. -/
def generate_unique_tracks (C : Config) (siOracle : List (Q3 × Q3) → Bool)
    (number_of_straight_sections number_of_turn_sections : ℤ)
    (starting_sequence : List Char) (allow_intersections : Bool)
    (maximum_number_of_tracks : ℤ) : Option (List (List Char)) :=
  let turn_splits := generate_turn_splits number_of_turn_sections
  let all_unique_tracks := turn_splits.map fun rl =>
    tracks_for_split C siOracle allow_intersections maximum_number_of_tracks
      number_of_straight_sections starting_sequence rl.1 rl.2
  match all_unique_tracks with
  | [] => none
  | first :: rest => some (unionSets first rest)

/-- List of the cyclic rotations `string[i:] + string[:i]` for
`i in range(len(string))`, as generated inside `get_cyclic_equivalent`. -/
def rotationsList (string : List Char) : List (List Char) :=
  (List.range string.length).map (fun i => string.drop i ++ string.take i)

/-- Embedding of `get_cyclic_equivalent`:
`min(string[i:] + string[:i] for i in range(len(string)))` under the
lexicographic order on strings.  Python's `min` of an empty generator
raises `ValueError`; the model returns `⊤` in that case. -/
def get_cyclic_equivalent (string : List Char) : WithTop (List Char) :=
  (rotationsList string).minimum

end Carrera

namespace Carrera

/-! ### Claim C2 — split planner output -/

/-- `C2`: evaluation of `generate_turn_splits` at the failing input
`T = 2`.  The code returns only `[(2, 0)]`: the balanced split `(1, 1)`
(first component `⌈2/2⌉ = 1`) is missing because the `range` starts at
`T // 2 + 1 = 2` rather than `⌈T/2⌉ = 1`, so for even `T` the claimed
interval `[⌈T/2⌉, T]` is not covered. -/
theorem C2_generate_turn_splits_at_2 :
    generate_turn_splits 2 = [(2, 0)] ∧ (1, 1) ∉ generate_turn_splits 2 := by
  with_unfolding_all decide

/-! ### Claim C3 — zero totals crash -/

/-- `C3`: evaluation at the failing input: with turn count `0` and
straight count `0`, `generate_turn_splits 0 = []`, so
`set.union(*all_unique_tracks)` is called with no arguments and raises
a `TypeError` (`none` in the model) instead of terminating normally
with an empty registry. -/
theorem C3_zero_zero_raises :
    generate_unique_tracks defaultConfig check_self_intersection 0 0 [] false 10
      = none ∧ generate_turn_splits 0 = [] := by
  with_unfolding_all decide

/-! ### Claim C7 — no fail-fast validation -/

/-- `C7` counterexample: an invalid configuration (negative straight
count) on which no configuration error is signalled: the search loop
runs over all three splits of `T = 6`, each split is found infeasible,
and the call returns an ordinary empty result set. -/
theorem C7_counterexample_no_failfast :
    generate_unique_tracks defaultConfig check_self_intersection (-1) 6 [] false 10
      = some [] := by
  with_unfolding_all decide

/-- `C7` amended: neither the constructor nor `generate_unique_tracks`
validates its inputs.  A negative straight count flows into the search
and yields a normal empty result; a negative turn count yields an empty
split list and the unhandled `TypeError` of `set.union(*[])` (`none`),
which is an exception thrown after split generation, not a
configuration error raised before the search begins. -/
theorem C7_no_validation_behaviour :
    generate_unique_tracks defaultConfig check_self_intersection (-1) 6 [] false 10
        = some [] ∧
      generate_unique_tracks defaultConfig check_self_intersection 5 (-2) [] false 10
        = none := by
  with_unfolding_all decide

/-! ### Generic facts about `setAdd` and `backtrack` -/

theorem mem_setAdd {x t : List Char} {acc : List (List Char)} :
    x ∈ setAdd t acc ↔ x = t ∨ x ∈ acc := by
  unfold setAdd
  by_cases hmem : t ∈ acc
  · rw [if_pos hmem]
    constructor
    · exact fun hx => Or.inr hx
    · rintro (rfl | hx) <;> [exact hmem; exact hx]
  · rw [if_neg hmem, List.mem_append, List.mem_singleton]
    tauto

/-- Invariance lemma for `backtrack`: if `I` holds at the root and is
preserved along every extension the search performs, then every track
in the result is either from the initial accumulator or satisfies the
full acceptance condition at a node where `I` holds. -/
theorem backtrack_accept_invariant (S : SearchCfg) (P : List Char → Prop)
    (I : List Char → ℤ → ℤ → ℤ → Prop)
    (hPI : ∀ t cR cL cS, I t cR cL cS → t ≠ [] →
      lap_completed S.geo t = true →
      (S.allow_intersections = true ∨
        S.check_self_intersection_oracle
          (track_coordinates S.geo t.dropLast) = true) →
      (S.allow_intersections = true ∨
        check_min_distance_to_self S.geo
          (track_coordinates S.geo t.dropLast) = true) →
      P t)
    (hR : ∀ t cR cL cS, I t cR cL cS → 0 < cR →
      ¬ S.consecutive_turn_condition <:+: t →
      ¬ S.consecutive_straight_condition <:+: t →
      I (t ++ ['R']) (cR - 1) cL cS)
    (hL : ∀ t cR cL cS, I t cR cL cS → 0 < cL →
      ¬ S.consecutive_turn_condition <:+: t →
      ¬ S.consecutive_straight_condition <:+: t →
      I (t ++ ['L']) cR (cL - 1) cS)
    (hS : ∀ t cR cL cS, I t cR cL cS → 0 < cS →
      ¬ S.consecutive_turn_condition <:+: t →
      ¬ S.consecutive_straight_condition <:+: t →
      I (t ++ ['S']) cR cL (cS - 1)) :
    ∀ (fuel : ℕ) (t : List Char) (cR cL cS : ℤ) (acc : List (List Char)),
      I t cR cL cS → (∀ x ∈ acc, P x) →
      ∀ x ∈ backtrack S fuel t cR cL cS acc, P x := by
  intro fuel
  induction fuel with
  | zero => intro t cR cL cS acc _ hacc x hx; exact hacc x hx
  | succ fuel ih =>
    intro t cR cL cS acc hI hacc x hx
    rw [backtrack] at hx
    by_cases hAcc : 0 < t.length ∧ lap_completed S.geo t = true ∧
        (S.allow_intersections = true ∨
          S.check_self_intersection_oracle
            (track_coordinates S.geo t.dropLast) = true) ∧
        (S.allow_intersections = true ∨
          check_min_distance_to_self S.geo
            (track_coordinates S.geo t.dropLast) = true)
    · rw [if_pos hAcc] at hx
      obtain ⟨hlen, hlap, hsi, hmd⟩ := hAcc
      rcases mem_setAdd.mp hx with hxt | hx
      · rw [hxt]
        exact hPI t cR cL cS hI (List.length_pos.mp hlen) hlap hsi hmd
      · exact hacc x hx
    · rw [if_neg hAcc] at hx
      dsimp only at hx
      have hstep1 : ∀ y ∈ (if 0 < cR ∧ ¬ S.consecutive_turn_condition <:+: t ∧
          ¬ S.consecutive_straight_condition <:+: t then
            backtrack S fuel (t ++ ['R']) (cR - 1) cL cS acc else acc), P y := by
        by_cases hc : 0 < cR ∧ ¬ S.consecutive_turn_condition <:+: t ∧
            ¬ S.consecutive_straight_condition <:+: t
        · rw [if_pos hc]
          exact ih _ _ _ _ _ (hR t cR cL cS hI hc.1 hc.2.1 hc.2.2) hacc
        · rw [if_neg hc]; exact hacc
      set acc1 := (if 0 < cR ∧ ¬ S.consecutive_turn_condition <:+: t ∧
          ¬ S.consecutive_straight_condition <:+: t then
            backtrack S fuel (t ++ ['R']) (cR - 1) cL cS acc else acc) with hacc1def
      have hstep2 : ∀ y ∈ (if 0 < cL ∧ ¬ S.consecutive_turn_condition <:+: t ∧
          ¬ S.consecutive_straight_condition <:+: t then
            backtrack S fuel (t ++ ['L']) cR (cL - 1) cS acc1 else acc1), P y := by
        by_cases hc : 0 < cL ∧ ¬ S.consecutive_turn_condition <:+: t ∧
            ¬ S.consecutive_straight_condition <:+: t
        · rw [if_pos hc]
          exact ih _ _ _ _ _ (hL t cR cL cS hI hc.1 hc.2.1 hc.2.2) hstep1
        · rw [if_neg hc]; exact hstep1
      set acc2 := (if 0 < cL ∧ ¬ S.consecutive_turn_condition <:+: t ∧
          ¬ S.consecutive_straight_condition <:+: t then
            backtrack S fuel (t ++ ['L']) cR (cL - 1) cS acc1 else acc1) with hacc2def
      split_ifs at hx with h1 h2 h3 h4
      · exact hacc x hx
      · exact hstep1 x hx
      · exact hstep2 x hx
      · exact ih _ _ _ _ _ (hS t cR cL cS hI h4.1 h4.2.1 h4.2.2) hstep2 x hx
      · exact hstep2 x hx

/-- Everything accepted into a split's result set begins with the
starting sequence, never overdraws any symbol budget, and completes a
lap.  (Each symbol's final count is `split count − remaining budget`
with the remaining budget still nonnegative.) -/
theorem tracks_for_split_accepted (C : Config)
    (siOracle : List (Q3 × Q3) → Bool) (allow : Bool) (cap : ℤ)
    (nS : ℤ) (start : List Char) (r l : ℤ) :
    ∀ x ∈ tracks_for_split C siOracle allow cap nS start r l,
      start <+: x ∧ (x.count 'R' : ℤ) ≤ r ∧ (x.count 'L' : ℤ) ≤ l ∧
        (x.count 'S' : ℤ) ≤ nS ∧ lap_completed C x = true ∧ x ≠ [] := by
  intro x hx
  unfold tracks_for_split at hx
  by_cases hfeas : r - (start.count 'R' : ℤ) < 0 ∨ l - (start.count 'L' : ℤ) < 0 ∨
      nS - (start.count 'S' : ℤ) < 0
  · rw [if_pos hfeas] at hx; cases hx
  · rw [if_neg hfeas] at hx
    push_neg at hfeas
    refine backtrack_accept_invariant _
      (fun x => start <+: x ∧ (x.count 'R' : ℤ) ≤ r ∧ (x.count 'L' : ℤ) ≤ l ∧
        (x.count 'S' : ℤ) ≤ nS ∧ lap_completed C x = true ∧ x ≠ [])
      (fun t cR cL cS => start <+: t ∧
        (t.count 'R' : ℤ) + cR = r ∧ (t.count 'L' : ℤ) + cL = l ∧
        (t.count 'S' : ℤ) + cS = nS ∧ 0 ≤ cR ∧ 0 ≤ cL ∧ 0 ≤ cS)
      ?_ ?_ ?_ ?_ _ _ _ _ _ _ ?_ ?_ x hx
    · intro t cR cL cS hI hne hlap _ _
      obtain ⟨hpre, h1, h2, h3, h4, h5, h6⟩ := hI
      exact ⟨hpre, by omega, by omega, by omega, hlap, hne⟩
    · intro t cR cL cS hI hpos _ _
      obtain ⟨hpre, h1, h2, h3, h4, h5, h6⟩ := hI
      refine ⟨hpre.trans (List.prefix_append t _), ?_, ?_, ?_, ?_, ?_, ?_⟩ <;>
        (try simp [List.count_append]) <;> omega
    · intro t cR cL cS hI hpos _ _
      obtain ⟨hpre, h1, h2, h3, h4, h5, h6⟩ := hI
      refine ⟨hpre.trans (List.prefix_append t _), ?_, ?_, ?_, ?_, ?_, ?_⟩ <;>
        (try simp [List.count_append]) <;> omega
    · intro t cR cL cS hI hpos _ _
      obtain ⟨hpre, h1, h2, h3, h4, h5, h6⟩ := hI
      refine ⟨hpre.trans (List.prefix_append t _), ?_, ?_, ?_, ?_, ?_, ?_⟩ <;>
        (try simp [List.count_append]) <;> omega
    · exact ⟨List.prefix_rfl, by omega, by omega, by omega, by omega, by omega, by omega⟩
    · intro y hy; cases hy

/-- Everything accepted into a split's result set keeps both forbidden
run strings out of its `dropLast`, provided the starting sequence's
`dropLast` is itself clean: a forbidden run can be created only by the
final, lap-completing append. -/
theorem tracks_for_split_run_conditions (C : Config)
    (siOracle : List (Q3 × Q3) → Bool) (allow : Bool) (cap : ℤ)
    (nS : ℤ) (start : List Char) (r l : ℤ)
    (hts : ¬ turnRunForbidden r l <:+: start.dropLast)
    (hss : ¬ straightRunForbidden nS <:+: start.dropLast) :
    ∀ x ∈ tracks_for_split C siOracle allow cap nS start r l,
      ¬ turnRunForbidden r l <:+: x.dropLast ∧
        ¬ straightRunForbidden nS <:+: x.dropLast := by
  intro x hx
  unfold tracks_for_split at hx
  by_cases hfeas : r - (start.count 'R' : ℤ) < 0 ∨ l - (start.count 'L' : ℤ) < 0 ∨
      nS - (start.count 'S' : ℤ) < 0
  · rw [if_pos hfeas] at hx; cases hx
  · rw [if_neg hfeas] at hx
    refine backtrack_accept_invariant _
      (fun x => ¬ turnRunForbidden r l <:+: x.dropLast ∧
        ¬ straightRunForbidden nS <:+: x.dropLast)
      (fun t _ _ _ => ¬ turnRunForbidden r l <:+: t.dropLast ∧
        ¬ straightRunForbidden nS <:+: t.dropLast)
      ?_ ?_ ?_ ?_ _ _ _ _ _ _ ⟨hts, hss⟩ ?_ x hx
    · exact fun t cR cL cS hI _ _ _ _ => hI
    · intro t cR cL cS _ _ h1 h2
      rw [List.dropLast_concat]; exact ⟨h1, h2⟩
    · intro t cR cL cS _ _ h1 h2
      rw [List.dropLast_concat]; exact ⟨h1, h2⟩
    · intro t cR cL cS _ _ h1 h2
      rw [List.dropLast_concat]; exact ⟨h1, h2⟩
    · intro y hy; cases hy

/-! ### Membership in the merged registry -/

theorem mem_foldl_setAdd (x : List Char) :
    ∀ (part : List (List Char)) (u : List (List Char)),
      (x ∈ part.foldl (fun u2 y => setAdd y u2) u ↔ x ∈ u ∨ x ∈ part)
  | [], u => by simp
  | y :: part', u => by
    rw [List.foldl_cons, mem_foldl_setAdd x part' (setAdd y u), mem_setAdd]
    simp [or_assoc]
    tauto

theorem mem_unionSets {x : List Char} (first : List (List Char))
    (rest : List (List (List Char))) :
    x ∈ unionSets first rest ↔ x ∈ first ∨ ∃ p ∈ rest, x ∈ p := by
  induction rest generalizing first with
  | nil => simp [unionSets]
  | cons p rest ih =>
    unfold unionSets at ih ⊢
    rw [List.foldl_cons, ih, mem_foldl_setAdd]
    simp [or_assoc]

/-- A track accepted by any split that the planner generates is in the
final registry. -/
theorem mem_registry_of_mem_split {C : Config}
    {siOracle : List (Q3 × Q3) → Bool} {allow : Bool} {cap : ℤ}
    {nS nT : ℤ} {start : List Char} {r l : ℤ} {x : List Char}
    (hsplit : (r, l) ∈ generate_turn_splits nT)
    (hx : x ∈ tracks_for_split C siOracle allow cap nS start r l) :
    ∃ u, generate_unique_tracks C siOracle nS nT start allow cap = some u ∧
      x ∈ u := by
  unfold generate_unique_tracks
  rcases hsp : generate_turn_splits nT with _ | ⟨s0, ss⟩
  · rw [hsp] at hsplit; cases hsplit
  · rw [hsp] at hsplit
    refine ⟨_, rfl, ?_⟩
    rw [mem_unionSets]
    rcases List.mem_cons.mp hsplit with heq | hmem
    · left
      subst heq
      exact hx
    · right
      exact ⟨_, List.mem_map_of_mem _ hmem, hx⟩

/-! ### Claim C6 — the two displacement formulas agree -/

/-- The per-piece displacement formula of `track_coordinates` is, piece
by piece, exactly the one of `lap_completed` (an identity of the ring
`ℚ[√3]`). -/
theorem coordStep_eq_lapStep (C : Config) (p : Pose) (c : Char) :
    coordStep C p c = lapStep C p c := by
  unfold coordStep lapStep
  split_ifs <;> (try dsimp only) <;>
    first
      | rfl
      | (congr 1 <;> first | rfl | (apply Q3.ext_ab <;> simp <;> ring))

theorem getLast_coordPoints (C : Config) :
    ∀ (t : List Char) (p : Pose),
      ((p.x, p.y) :: coordPoints C p t).getLast? =
        some ((t.foldl (lapStep C) p).x, (t.foldl (lapStep C) p).y)
  | [], p => rfl
  | c :: rest, p => by
    rw [List.foldl_cons]
    have hstep : coordStep C p c = lapStep C p c := coordStep_eq_lapStep C p c
    calc ((p.x, p.y) :: coordPoints C p (c :: rest)).getLast?
        = (((coordStep C p c).x, (coordStep C p c).y) ::
            coordPoints C (coordStep C p c) rest).getLast? := by
          rw [coordPoints]; exact List.getLast?_cons_cons
      _ = some ((rest.foldl (lapStep C) (lapStep C p c)).x,
            (rest.foldl (lapStep C) (lapStep C p c)).y) := by
          rw [hstep]; exact getLast_coordPoints C rest (lapStep C p c)

/-- `C6`: for every track map string and every configuration, the final
position of the pose-update loop of `lap_completed` equals the last
vertex returned by `track_coordinates` (exact arithmetic in `ℚ[√3]`,
i.e. as exact reals). -/
theorem C6_lap_pose_eq_last_vertex (C : Config) (track_map : List Char) :
    (track_coordinates C track_map).getLast? =
      some ((lapPose C track_map).x, (lapPose C track_map).y) := by
  unfold track_coordinates lapPose
  exact getLast_coordPoints C track_map ⟨0, 0, 0⟩

/-! ### Claim C1 — prefix and symbol counts of accepted layouts -/

/-- `C1` counterexample: with `T = 11`, `S = 0`, starting sequence
`"RRRRR"` and intersections allowed, the registry is exactly
`{"RRRRRR"}`: the lap completes as soon as the sixth `'R'` is appended,
before the budgets of the split `(10, 1)` (or `(11, 0)`) under which it
was generated are exhausted, so its symbol counts `(6, 0, 0)` do not
equal the split's counts plus the starting sequence's contribution. -/
theorem C1_counterexample_early_closure :
    generate_unique_tracks defaultConfig check_self_intersection 0 11
        ("RRRRR".toList) true 10 = some ["RRRRRR".toList] ∧
      "RRRRRR".toList ∈ tracks_for_split defaultConfig check_self_intersection
        true 10 0 ("RRRRR".toList) 10 1 ∧
      (10, 1) ∈ generate_turn_splits 11 ∧
      ¬ ((("RRRRRR".toList).count 'R' : ℤ) = 10 ∧
          (("RRRRRR".toList).count 'L' : ℤ) = 1 ∧
          (("RRRRRR".toList).count 'S' : ℤ) = 0) := by
  with_unfolding_all decide

/-- `C1` amended: every layout accepted under a split begins with the
configured starting sequence, and each symbol's count is at most (not
necessarily equal to) the count the split assigns to it, the starting
sequence's contribution included — a lap may complete before the
budgets are exhausted. -/
theorem C1_amended_prefix_and_budget_bounds (C : Config)
    (siOracle : List (Q3 × Q3) → Bool) (allow : Bool) (cap : ℤ)
    (nS : ℤ) (start : List Char) (r l : ℤ) :
    ∀ x ∈ tracks_for_split C siOracle allow cap nS start r l,
      start <+: x ∧ (x.count 'R' : ℤ) ≤ r ∧ (x.count 'L' : ℤ) ≤ l ∧
        (x.count 'S' : ℤ) ≤ nS := by
  intro x hx
  obtain ⟨h1, h2, h3, h4, _, _⟩ :=
    tracks_for_split_accepted C siOracle allow cap nS start r l x hx
  exact ⟨h1, h2, h3, h4⟩

theorem C1_amended_witness :
    "RRRRRR".toList ∈ tracks_for_split defaultConfig check_self_intersection
        true 10 0 ("RRRRR".toList) 10 1 ∧
      ("RRRRR".toList <+: "RRRRRR".toList ∧
        (("RRRRRR".toList).count 'R' : ℤ) ≤ 10 ∧
        (("RRRRRR".toList).count 'L' : ℤ) ≤ 1 ∧
        (("RRRRRR".toList).count 'S' : ℤ) ≤ 0) :=
  ⟨by with_unfolding_all decide,
    C1_amended_prefix_and_budget_bounds defaultConfig check_self_intersection
      true 10 0 ("RRRRR".toList) 10 1 ("RRRRRR".toList)
      (by with_unfolding_all decide)⟩

/-! ### Claim C4 — forbidden run substrings in accepted layouts -/

/-- `C4` counterexample: the run-length check is applied to the sequence
*before* a symbol is appended, so the final, lap-completing append may
create the forbidden run.  Under the split `(10, 1)` the forbidden
majority run is six `'R'`s, and the accepted layout `"RRRRRR"` (in the
registry of the `T = 11` run) is itself that forbidden substring. -/
theorem C4_counterexample_forbidden_run_at_end :
    generate_unique_tracks defaultConfig check_self_intersection 0 11
        ("RRRRR".toList) true 10 = some ["RRRRRR".toList] ∧
      "RRRRRR".toList ∈ tracks_for_split defaultConfig check_self_intersection
        true 10 0 ("RRRRR".toList) 10 1 ∧
      (10, 1) ∈ generate_turn_splits 11 ∧
      turnRunForbidden 10 1 = List.replicate 6 'R' ∧
      turnRunForbidden 10 1 <:+: "RRRRRR".toList := by
  with_unfolding_all decide

/-- `C4` amended: provided the starting sequence minus its last symbol
does not itself contain a forbidden run, no accepted layout contains
the forbidden straight run or the forbidden majority-turn run as a
substring of the layout minus its last symbol: a forbidden run can
appear only when created by the final, lap-completing append (or
inherited from the starting sequence). -/
theorem C4_amended_no_forbidden_run_before_last (C : Config)
    (siOracle : List (Q3 × Q3) → Bool) (allow : Bool) (cap : ℤ)
    (nS : ℤ) (start : List Char) (r l : ℤ)
    (hts : ¬ turnRunForbidden r l <:+: start.dropLast)
    (hss : ¬ straightRunForbidden nS <:+: start.dropLast) :
    ∀ x ∈ tracks_for_split C siOracle allow cap nS start r l,
      ¬ turnRunForbidden r l <:+: x.dropLast ∧
        ¬ straightRunForbidden nS <:+: x.dropLast :=
  tracks_for_split_run_conditions C siOracle allow cap nS start r l hts hss

theorem C4_amended_witness :
    (¬ turnRunForbidden 10 1 <:+: ("RRRRR".toList).dropLast) ∧
      (¬ straightRunForbidden 0 <:+: ("RRRRR".toList).dropLast) ∧
      "RRRRRR".toList ∈ tracks_for_split defaultConfig check_self_intersection
        true 10 0 ("RRRRR".toList) 10 1 ∧
      (¬ turnRunForbidden 10 1 <:+: ("RRRRRR".toList).dropLast ∧
        ¬ straightRunForbidden 0 <:+: ("RRRRRR".toList).dropLast) :=
  ⟨by with_unfolding_all decide, by with_unfolding_all decide,
    by with_unfolding_all decide,
    C4_amended_no_forbidden_run_before_last defaultConfig
      check_self_intersection true 10 0 ("RRRRR".toList) 10 1
      (by with_unfolding_all decide) (by with_unfolding_all decide)
      ("RRRRRR".toList) (by with_unfolding_all decide)⟩

/-! ### Claim C5 — accepted layouts close within tolerance -/

theorem sqrtLtRat_sound {v : Q3} {t : ℚ} (h : sqrtLtRat v t = true) :
    Real.sqrt v.toReal < (t : ℝ) := by
  unfold sqrtLtRat at h
  rw [Bool.and_eq_true, decide_eq_true_eq] at h
  obtain ⟨ht, hlt⟩ := h
  have ht' : (0:ℝ) < (t:ℝ) := by exact_mod_cast ht
  rw [Real.sqrt_lt' ht']
  have hv := Q3.ltRat_lt hlt
  calc v.toReal < ((t * t : ℚ) : ℝ) := hv
    _ = (t:ℝ) ^ 2 := by push_cast; ring

theorem toReal_sumsq (p : Pose) :
    (p.x * p.x + p.y * p.y).toReal = p.x.toReal ^ 2 + p.y.toReal ^ 2 := by
  rw [Q3.toReal_add, Q3.toReal_mul, Q3.toReal_mul]; ring

/-- Validation of the orientation-check embedding: with the default
orientation tolerance `0.01`, the source's test
`abs((k·π/3) % (2π)) < 0.01` (Python's `%`, i.e. `θ - 2π·⌊θ/(2π)⌋`)
holds iff `k % 6 = 0`. -/
theorem orientation_check_bridge (k : ℤ) :
    ((k % 6 == 0) = true) ↔
      |(k : ℝ) * (Real.pi / 3) -
          2 * Real.pi * ⌊(k : ℝ) * (Real.pi / 3) / (2 * Real.pi)⌋| < 1/100 := by
  have hpi0 : (Real.pi : ℝ) ≠ 0 := Real.pi_ne_zero
  have hdiv : (k:ℝ) * (Real.pi / 3) / (2 * Real.pi) = (k:ℝ) / 6 := by
    field_simp; ring
  have hfloor : ⌊(k:ℝ) / 6⌋ = k / 6 := by
    have h1 : ((k / 6 : ℤ)) * 6 ≤ k := by omega
    have h2 : k < ((k / 6 : ℤ)) * 6 + 6 := by omega
    have h1R : (((k / 6 : ℤ)) : ℝ) * 6 ≤ (k : ℝ) := by exact_mod_cast h1
    have h2R : (k : ℝ) < (((k / 6 : ℤ)) : ℝ) * 6 + 6 := by exact_mod_cast h2
    rw [Int.floor_eq_iff]
    constructor
    · rw [le_div_iff₀ (by norm_num : (0:ℝ) < 6)]
      linarith
    · rw [div_lt_iff₀ (by norm_num : (0:ℝ) < 6)]
      linarith
  rw [hdiv, hfloor]
  have hk : (k : ℝ) = 6 * ((k / 6 : ℤ) : ℝ) + ((k % 6 : ℤ) : ℝ) := by
    have h6 := Int.ediv_add_emod k 6
    exact_mod_cast congrArg (fun z : ℤ => (z : ℝ)) h6.symm
  have hval : (k : ℝ) * (Real.pi / 3) - 2 * Real.pi * ((k / 6 : ℤ) : ℝ)
      = ((k % 6 : ℤ) : ℝ) * (Real.pi / 3) := by
    rw [hk]; ring
  rw [hval]
  have hr0 : (0:ℤ) ≤ k % 6 := Int.emod_nonneg k (by norm_num)
  have hr6 : k % 6 < 6 := Int.emod_lt_of_pos k (by norm_num)
  have hpi3 : (1:ℝ) < Real.pi / 3 := by
    have := Real.pi_gt_three
    linarith
  constructor
  · intro h
    have h0 : k % 6 = 0 := by simpa using h
    rw [h0]
    simp
  · intro h
    by_contra hne
    have h1 : (1:ℤ) ≤ k % 6 := by
      rcases lt_or_eq_of_le hr0 with hlt | heq
      · omega
      · exact absurd heq.symm (by simpa using hne)
    have hge : (1:ℝ) ≤ ((k % 6 : ℤ) : ℝ) := by exact_mod_cast h1
    have habs : |((k % 6 : ℤ) : ℝ) * (Real.pi / 3)| =
        ((k % 6 : ℤ) : ℝ) * (Real.pi / 3) := by
      apply abs_of_nonneg
      apply mul_nonneg (by exact_mod_cast hr0)
      linarith
    rw [habs] at h
    nlinarith

/-- `C5`: replaying the pose update over any accepted layout yields a
final position whose Euclidean distance to the origin is less than the
lap tolerance, and a final orientation within the (default `0.01`)
orientation tolerance of some integer multiple of `2π` — in particular
the multiple may account for orientations on either side, since the
distance to the *nearest* multiple is what is bounded. -/
theorem C5_accepted_laps_close (C : Config)
    (siOracle : List (Q3 × Q3) → Bool) (allow : Bool) (cap : ℤ)
    (nS : ℤ) (start : List Char) (r l : ℤ) :
    ∀ x ∈ tracks_for_split C siOracle allow cap nS start r l,
      Real.sqrt ((lapPose C x).x.toReal ^ 2 + (lapPose C x).y.toReal ^ 2)
          < (C.lap_tolerance : ℝ) ∧
        ∃ m : ℤ, |((lapPose C x).k : ℝ) * (Real.pi / 3) - 2 * Real.pi * m|
          < 1/100 := by
  intro x hx
  obtain ⟨-, -, -, -, hlap, -⟩ :=
    tracks_for_split_accepted C siOracle allow cap nS start r l x hx
  unfold lap_completed at hlap
  rw [Bool.and_eq_true] at hlap
  obtain ⟨hdist, hori⟩ := hlap
  constructor
  · have := sqrtLtRat_sound hdist
    rwa [toReal_sumsq] at this
  · refine ⟨(lapPose C x).k / 6, ?_⟩
    have h0 : (lapPose C x).k % 6 = 0 := by simpa using hori
    have hk : ((lapPose C x).k : ℝ)
        = 6 * (((lapPose C x).k / 6 : ℤ) : ℝ) := by
      have h := Int.ediv_add_emod (lapPose C x).k 6
      rw [h0, add_zero] at h
      exact_mod_cast congrArg (fun z : ℤ => (z : ℝ)) h.symm
    rw [hk]
    have : 6 * (((lapPose C x).k / 6 : ℤ) : ℝ) * (Real.pi / 3) -
        2 * Real.pi * (((lapPose C x).k / 6 : ℤ) : ℝ) = 0 := by ring
    rw [this]
    simp

theorem C5_witness :
    "RRRRRR".toList ∈ tracks_for_split defaultConfig check_self_intersection
        true 10 0 ("RRRRR".toList) 10 1 ∧
      (Real.sqrt ((lapPose defaultConfig ("RRRRRR".toList)).x.toReal ^ 2 +
            (lapPose defaultConfig ("RRRRRR".toList)).y.toReal ^ 2)
          < ((defaultConfig).lap_tolerance : ℝ) ∧
        ∃ m : ℤ, |((lapPose defaultConfig ("RRRRRR".toList)).k : ℝ)
            * (Real.pi / 3) - 2 * Real.pi * m| < 1/100) :=
  ⟨by with_unfolding_all decide,
    C5_accepted_laps_close defaultConfig check_self_intersection true 10 0
      ("RRRRR".toList) 10 1 ("RRRRRR".toList) (by with_unfolding_all decide)⟩

/-! ### Claim C9 — allow-intersections monotonicity -/

/-- Proof-layer companion of `backtrack`: the set of tracks accepted in
the subtree rooted at the given node when the result cap is never
reached (so the accumulator plays no role and the cap checks never
fire).  `backtrack_eq_nocap` below shows that whenever a `backtrack`
run finishes below the cap, its result is the initial accumulator plus
exactly this set. -/
def backtrackNC (S : SearchCfg) : ℕ → List Char → ℤ → ℤ → ℤ →
    List (List Char)
  | 0, _, _, _, _ => []
  | fuel + 1, track_so_far, cR, cL, cS =>
    if 0 < track_so_far.length ∧ lap_completed S.geo track_so_far = true ∧
        (S.allow_intersections = true ∨
          S.check_self_intersection_oracle
            (track_coordinates S.geo track_so_far.dropLast) = true) ∧
        (S.allow_intersections = true ∨
          check_min_distance_to_self S.geo
            (track_coordinates S.geo track_so_far.dropLast) = true) then
      [track_so_far]
    else
      (if 0 < cR ∧ ¬ S.consecutive_turn_condition <:+: track_so_far ∧
          ¬ S.consecutive_straight_condition <:+: track_so_far then
        backtrackNC S fuel (track_so_far ++ ['R']) (cR - 1) cL cS else []) ++
      (if 0 < cL ∧ ¬ S.consecutive_turn_condition <:+: track_so_far ∧
          ¬ S.consecutive_straight_condition <:+: track_so_far then
        backtrackNC S fuel (track_so_far ++ ['L']) cR (cL - 1) cS else []) ++
      (if 0 < cS ∧ ¬ S.consecutive_turn_condition <:+: track_so_far ∧
          ¬ S.consecutive_straight_condition <:+: track_so_far then
        backtrackNC S fuel (track_so_far ++ ['S']) cR cL (cS - 1) else [])

theorem setAdd_length_mono (t : List Char) (acc : List (List Char)) :
    acc.length ≤ (setAdd t acc).length := by
  unfold setAdd
  split_ifs <;> simp

theorem backtrack_length_mono (S : SearchCfg) :
    ∀ (fuel : ℕ) (t : List Char) (cR cL cS : ℤ) (acc : List (List Char)),
      acc.length ≤ (backtrack S fuel t cR cL cS acc).length := by
  intro fuel
  induction fuel with
  | zero => intro t cR cL cS acc; exact le_refl _
  | succ fuel ih =>
    intro t cR cL cS acc
    rw [backtrack]
    split_ifs
    any_goals exact le_refl _
    · exact setAdd_length_mono t acc
    all_goals dsimp only
    all_goals split_ifs
    any_goals exact le_refl _
    all_goals
      first
        | exact ih _ _ _ _ _
        | (exact le_trans (ih _ _ _ _ _) (ih _ _ _ _ _))
        | (exact le_trans (le_trans (ih _ _ _ _ _) (ih _ _ _ _ _)) (ih _ _ _ _ _))

/-- Tracks produced by the cap-free subtree search extend the root
sequence, complete a lap, and satisfy the geometry conditions of their
own acceptance. -/
theorem backtrackNC_mem (S : SearchCfg) :
    ∀ (fuel : ℕ) (t : List Char) (cR cL cS : ℤ) (x : List Char),
      x ∈ backtrackNC S fuel t cR cL cS →
      t <+: x ∧ x ≠ [] ∧ lap_completed S.geo x = true ∧
        (S.allow_intersections = true ∨
          S.check_self_intersection_oracle
            (track_coordinates S.geo x.dropLast) = true) ∧
        (S.allow_intersections = true ∨
          check_min_distance_to_self S.geo
            (track_coordinates S.geo x.dropLast) = true) := by
  intro fuel
  induction fuel with
  | zero => intro t cR cL cS x hx; cases hx
  | succ fuel ih =>
    intro t cR cL cS x hx
    rw [backtrackNC] at hx
    split_ifs at hx with hAcc
    · obtain ⟨hlen, hlap, hsi, hmd⟩ := hAcc
      have hxt := List.mem_singleton.mp hx
      rw [hxt]
      exact ⟨List.prefix_rfl, List.length_pos.mp hlen, hlap, hsi, hmd⟩
    all_goals
      rw [List.mem_append, List.mem_append] at hx
    all_goals
      rcases hx with (hx | hx) | hx <;>
        first
          | cases hx
          | (obtain ⟨hpre, rest⟩ := ih _ _ _ _ _ hx
             exact ⟨(List.prefix_append t _).trans hpre, rest⟩)

theorem coordPoints_append (C : Config) :
    ∀ (u w : List Char) (p : Pose),
      coordPoints C p (u ++ w) =
        coordPoints C p u ++ coordPoints C (u.foldl (coordStep C) p) w
  | [], w, p => rfl
  | c :: u', w, p => by
    rw [List.cons_append, coordPoints, coordPoints, List.foldl_cons,
      coordPoints_append C u' w (coordStep C p c), List.cons_append]

theorem track_coordinates_prefix (C : Config) {u v : List Char}
    (h : u <+: v) : track_coordinates C u <+: track_coordinates C v := by
  obtain ⟨w, rfl⟩ := h
  unfold track_coordinates
  rw [coordPoints_append]
  exact ⟨_, by rw [List.cons_append]⟩

theorem prefix_dropLast_of_concat {u x : List Char} {c : Char}
    (h : u ++ [c] <+: x) : u <+: x.dropLast := by
  obtain ⟨w, hw⟩ := h
  rw [← hw, List.append_assoc, List.singleton_append, List.dropLast_append_cons]
  exact List.prefix_append u _

/-- The minimum-distance check is monotone under taking prefixes of the
vertex list: a passing vertex list has all its prefixes passing (so a
failure persists under extension). -/
theorem check_min_distance_prefix (C : Config) :
    ∀ {u v : List (Q3 × Q3)}, u <+: v →
      check_min_distance_to_self C v = true →
      check_min_distance_to_self C u = true := by
  intro u
  induction u with
  | nil => intro v _ _; rfl
  | cons p u' ih =>
    intro v hpre hv
    obtain ⟨w, hw⟩ := hpre
    rw [← hw] at hv
    rw [List.cons_append] at hv
    unfold check_min_distance_to_self at hv ⊢
    rw [Bool.and_eq_true] at hv ⊢
    obtain ⟨hall, hrest⟩ := hv
    constructor
    · rw [List.all_eq_true] at hall ⊢
      intro q hq
      exact hall q (List.mem_append.mpr (Or.inl hq))
    · exact ih (List.prefix_append u' w) hrest

/-- When a `backtrack` run finishes strictly below the result cap, no
cap check ever fired during it, and its members are exactly the initial
accumulator plus the cap-free accepted set of the subtree. -/
theorem backtrack_eq_nocap (S : SearchCfg) :
    ∀ (fuel : ℕ) (t : List Char) (cR cL cS : ℤ) (acc : List (List Char)),
      ((backtrack S fuel t cR cL cS acc).length : ℤ) <
        S.maximum_number_of_tracks →
      ∀ x, x ∈ backtrack S fuel t cR cL cS acc ↔
        x ∈ acc ∨ x ∈ backtrackNC S fuel t cR cL cS := by
  intro fuel
  induction fuel with
  | zero =>
    intro t cR cL cS acc _ x
    rw [backtrack, backtrackNC]
    exact ⟨fun hx => Or.inl hx,
      fun hx => hx.elim id (fun hx => absurd hx (List.not_mem_nil x))⟩
  | succ fuel ih =>
    intro t cR cL cS acc h x
    rw [backtrack] at h ⊢
    rw [backtrackNC]
    by_cases hAcc : 0 < t.length ∧ lap_completed S.geo t = true ∧
        (S.allow_intersections = true ∨
          S.check_self_intersection_oracle
            (track_coordinates S.geo t.dropLast) = true) ∧
        (S.allow_intersections = true ∨
          check_min_distance_to_self S.geo
            (track_coordinates S.geo t.dropLast) = true)
    · rw [if_pos hAcc, mem_setAdd, if_pos hAcc]
      simp only [List.mem_singleton]
      tauto
    · rw [if_neg hAcc] at h
      rw [if_neg hAcc, if_neg hAcc]
      by_cases hc0 : S.maximum_number_of_tracks ≤ ((acc.length : ℕ) : ℤ)
      · rw [if_pos hc0] at h
        exact absurd h (not_lt.mpr hc0)
      · rw [if_neg hc0] at h ⊢
        dsimp only at h ⊢
        set e1 := (if 0 < cR ∧ ¬ S.consecutive_turn_condition <:+: t ∧
            ¬ S.consecutive_straight_condition <:+: t then
              backtrack S fuel (t ++ ['R']) (cR - 1) cL cS acc else acc)
          with he1
        set e2 := (if 0 < cL ∧ ¬ S.consecutive_turn_condition <:+: t ∧
            ¬ S.consecutive_straight_condition <:+: t then
              backtrack S fuel (t ++ ['L']) cR (cL - 1) cS e1 else e1)
          with he2
        set e3 := (if 0 < cS ∧ ¬ S.consecutive_turn_condition <:+: t ∧
            ¬ S.consecutive_straight_condition <:+: t then
              backtrack S fuel (t ++ ['S']) cR cL (cS - 1) e2 else e2)
          with he3
        have hm12 : e1.length ≤ e2.length := by
          rw [he2]
          split_ifs
          · exact backtrack_length_mono S _ _ _ _ _ _
          · exact le_refl _
        have hm23 : e2.length ≤ e3.length := by
          rw [he3]
          split_ifs
          · exact backtrack_length_mono S _ _ _ _ _ _
          · exact le_refl _
        by_cases hc1 : S.maximum_number_of_tracks ≤ ((e1.length : ℕ) : ℤ)
        · rw [if_pos hc1] at h
          exact absurd h (not_lt.mpr hc1)
        · rw [if_neg hc1] at h ⊢
          by_cases hc2 : S.maximum_number_of_tracks ≤ ((e2.length : ℕ) : ℤ)
          · rw [if_pos hc2] at h
            exact absurd h (not_lt.mpr hc2)
          · rw [if_neg hc2] at h ⊢
            have h3 : ((e3.length : ℕ) : ℤ) < S.maximum_number_of_tracks := h
            have h2 : ((e2.length : ℕ) : ℤ) < S.maximum_number_of_tracks := by
              have hle := hm23; omega
            have h1 : ((e1.length : ℕ) : ℤ) < S.maximum_number_of_tracks := by
              have hle := hm12; omega
            have hx1 : ∀ y, y ∈ e1 ↔ y ∈ acc ∨
                y ∈ (if 0 < cR ∧ ¬ S.consecutive_turn_condition <:+: t ∧
                  ¬ S.consecutive_straight_condition <:+: t then
                    backtrackNC S fuel (t ++ ['R']) (cR - 1) cL cS else []) := by
              intro y
              by_cases hcond : 0 < cR ∧ ¬ S.consecutive_turn_condition <:+: t ∧
                  ¬ S.consecutive_straight_condition <:+: t
              · have h1c := h1
                rw [he1, if_pos hcond] at h1c
                rw [he1, if_pos hcond, if_pos hcond]
                exact ih _ _ _ _ _ h1c y
              · rw [he1, if_neg hcond, if_neg hcond]
                exact ⟨fun hy => Or.inl hy,
                  fun hy => hy.elim id (fun hy => absurd hy (List.not_mem_nil y))⟩
            have hx2 : ∀ y, y ∈ e2 ↔ y ∈ e1 ∨
                y ∈ (if 0 < cL ∧ ¬ S.consecutive_turn_condition <:+: t ∧
                  ¬ S.consecutive_straight_condition <:+: t then
                    backtrackNC S fuel (t ++ ['L']) cR (cL - 1) cS else []) := by
              intro y
              by_cases hcond : 0 < cL ∧ ¬ S.consecutive_turn_condition <:+: t ∧
                  ¬ S.consecutive_straight_condition <:+: t
              · have h2c := h2
                rw [he2, if_pos hcond] at h2c
                rw [he2, if_pos hcond, if_pos hcond]
                exact ih _ _ _ _ _ h2c y
              · rw [he2, if_neg hcond, if_neg hcond]
                exact ⟨fun hy => Or.inl hy,
                  fun hy => hy.elim id (fun hy => absurd hy (List.not_mem_nil y))⟩
            have hx3 : ∀ y, y ∈ e3 ↔ y ∈ e2 ∨
                y ∈ (if 0 < cS ∧ ¬ S.consecutive_turn_condition <:+: t ∧
                  ¬ S.consecutive_straight_condition <:+: t then
                    backtrackNC S fuel (t ++ ['S']) cR cL (cS - 1) else []) := by
              intro y
              by_cases hcond : 0 < cS ∧ ¬ S.consecutive_turn_condition <:+: t ∧
                  ¬ S.consecutive_straight_condition <:+: t
              · have h3c := h3
                rw [he3, if_pos hcond] at h3c
                rw [he3, if_pos hcond, if_pos hcond]
                exact ih _ _ _ _ _ h3c y
              · rw [he3, if_neg hcond, if_neg hcond]
                exact ⟨fun hy => Or.inl hy,
                  fun hy => hy.elim id (fun hy => absurd hy (List.not_mem_nil y))⟩
            rw [hx3 x, hx2 x, hx1 x]
            simp only [List.mem_append]
            tauto

/-- The same per-split search parameters with the
`allow_intersections` flag replaced. -/
def SearchCfg.withAllow (S : SearchCfg) (b : Bool) : SearchCfg :=
  ⟨S.geo, b, S.maximum_number_of_tracks, S.check_self_intersection_oracle,
    S.consecutive_turn_condition, S.consecutive_straight_condition⟩

@[simp] theorem withAllow_geo (S : SearchCfg) (b : Bool) :
    (S.withAllow b).geo = S.geo := rfl
@[simp] theorem withAllow_allow (S : SearchCfg) (b : Bool) :
    (S.withAllow b).allow_intersections = b := rfl
@[simp] theorem withAllow_cap (S : SearchCfg) (b : Bool) :
    (S.withAllow b).maximum_number_of_tracks =
      S.maximum_number_of_tracks := rfl
@[simp] theorem withAllow_oracle (S : SearchCfg) (b : Bool) :
    (S.withAllow b).check_self_intersection_oracle =
      S.check_self_intersection_oracle := rfl
@[simp] theorem withAllow_turn (S : SearchCfg) (b : Bool) :
    (S.withAllow b).consecutive_turn_condition =
      S.consecutive_turn_condition := rfl
@[simp] theorem withAllow_straight (S : SearchCfg) (b : Bool) :
    (S.withAllow b).consecutive_straight_condition =
      S.consecutive_straight_condition := rfl

/-- Core of the amended C9: with the cap never firing, every track
accepted with the geometry checks enabled is accepted when they are
disabled.  The proof needs the self-intersection oracle to be
monotone in the polyline-extension sense (a failure persists when
vertices are appended); the minimum-distance check has this property
outright (`check_min_distance_prefix`).  A geometry-failed completed
node then has an entirely fruitless subtree, which the `allow = true`
run replaces by accepting the node itself. -/
theorem backtrackNC_superset (S : SearchCfg)
    (hallow : S.allow_intersections = false)
    (hmono : ∀ p q : List (Q3 × Q3), p <+: q →
      S.check_self_intersection_oracle p = false →
      S.check_self_intersection_oracle q = false) :
    ∀ (fuel : ℕ) (t : List Char) (cR cL cS : ℤ),
      ∀ x ∈ backtrackNC S fuel t cR cL cS,
        x ∈ backtrackNC (S.withAllow true) fuel t cR cL cS := by
  intro fuel
  induction fuel with
  | zero => intro t cR cL cS x hx; cases hx
  | succ fuel ih =>
    intro t cR cL cS x hx
    rw [backtrackNC] at hx ⊢
    simp only [withAllow_geo, withAllow_allow, withAllow_oracle,
      withAllow_turn, withAllow_straight]
    by_cases hT : 0 < t.length ∧ lap_completed S.geo t = true
    · have hacc' : 0 < t.length ∧ lap_completed S.geo t = true ∧
          (True ∨ S.check_self_intersection_oracle
            (track_coordinates S.geo t.dropLast) = true) ∧
          (True ∨ check_min_distance_to_self S.geo
            (track_coordinates S.geo t.dropLast) = true) :=
        ⟨hT.1, hT.2, Or.inl trivial, Or.inl trivial⟩
      rw [if_pos hacc']
      by_cases hF : 0 < t.length ∧ lap_completed S.geo t = true ∧
          (S.allow_intersections = true ∨ S.check_self_intersection_oracle
            (track_coordinates S.geo t.dropLast) = true) ∧
          (S.allow_intersections = true ∨ check_min_distance_to_self S.geo
            (track_coordinates S.geo t.dropLast) = true)
      · rw [if_pos hF] at hx
        exact hx
      · rw [if_neg hF] at hx
        exfalso
        have hgeo : S.check_self_intersection_oracle
            (track_coordinates S.geo t.dropLast) = false ∨
            check_min_distance_to_self S.geo
              (track_coordinates S.geo t.dropLast) = false := by
          by_contra hng
          push_neg at hng
          exact hF ⟨hT.1, hT.2,
            Or.inr (Bool.not_eq_false _ |>.mp hng.1),
            Or.inr (Bool.not_eq_false _ |>.mp hng.2)⟩
        rw [List.mem_append, List.mem_append] at hx
        rcases hx with (hx | hx) | hx <;>
          · split_ifs at hx
            · obtain ⟨hpre, hne, hlap, hsi, hmd⟩ :=
                backtrackNC_mem S fuel _ _ _ _ x hx
              rw [hallow] at hsi hmd
              have hsi' : S.check_self_intersection_oracle
                  (track_coordinates S.geo x.dropLast) = true :=
                hsi.resolve_left (by simp)
              have hmd' : check_min_distance_to_self S.geo
                  (track_coordinates S.geo x.dropLast) = true :=
                hmd.resolve_left (by simp)
              have hdrop : t.dropLast <+: x.dropLast :=
                (List.dropLast_prefix t).trans
                  (prefix_dropLast_of_concat hpre)
              have hcoords := track_coordinates_prefix S.geo hdrop
              rcases hgeo with hsf | hmf
              · have hfail := hmono _ _ hcoords hsf
                rw [hfail] at hsi'
                cases hsi'
              · have hpass := check_min_distance_prefix S.geo hcoords hmd'
                rw [hpass] at hmf
                cases hmf
            · cases hx
    · have hF : ¬ (0 < t.length ∧ lap_completed S.geo t = true ∧
          (S.allow_intersections = true ∨ S.check_self_intersection_oracle
            (track_coordinates S.geo t.dropLast) = true) ∧
          (S.allow_intersections = true ∨ check_min_distance_to_self S.geo
            (track_coordinates S.geo t.dropLast) = true)) :=
        fun hc => hT ⟨hc.1, hc.2.1⟩
      have hT' : ¬ (0 < t.length ∧ lap_completed S.geo t = true ∧
          (True ∨ S.check_self_intersection_oracle
            (track_coordinates S.geo t.dropLast) = true) ∧
          (True ∨ check_min_distance_to_self S.geo
            (track_coordinates S.geo t.dropLast) = true)) :=
        fun hc => hT ⟨hc.1, hc.2.1⟩
      rw [if_neg hF] at hx
      rw [if_neg hT']
      rw [List.mem_append, List.mem_append] at hx ⊢
      rcases hx with (hx | hx) | hx
      · refine Or.inl (Or.inl ?_)
        split_ifs at hx with hc
        · rw [if_pos hc]
          exact ih _ _ _ _ x hx
        · cases hx
      · refine Or.inl (Or.inr ?_)
        split_ifs at hx with hc
        · rw [if_pos hc]
          exact ih _ _ _ _ x hx
        · cases hx
      · refine Or.inr ?_
        split_ifs at hx with hc
        · rw [if_pos hc]
          exact ih _ _ _ _ x hx
        · cases hx

/-! ### Claim C8 — canonical rotation -/

theorem mem_rotationsList_iff {s t : List Char} (hs : s ≠ []) :
    t ∈ rotationsList s ↔ s.IsRotated t := by
  unfold rotationsList
  rw [List.mem_map]
  constructor
  · rintro ⟨i, hi, rfl⟩
    rw [List.mem_range] at hi
    exact ⟨i, List.rotate_eq_drop_append_take hi.le⟩
  · intro hrot
    obtain ⟨n, hn, hrw⟩ := List.isRotated_iff_mod.mp hrot
    rcases lt_or_eq_of_le hn with hlt | heq
    · exact ⟨n, List.mem_range.mpr hlt, by
        rw [← List.rotate_eq_drop_append_take hlt.le, hrw]⟩
    · refine ⟨0, List.mem_range.mpr (List.length_pos.mpr hs), ?_⟩
      simp only [List.drop_zero, List.take_zero, List.append_nil]
      rw [← hrw, heq, List.rotate_length]

theorem minimum_eq_of_mem_iff {l1 l2 : List (List Char)}
    (hne : l1 ≠ []) (h : ∀ x, x ∈ l1 ↔ x ∈ l2) :
    l1.minimum = l2.minimum := by
  obtain ⟨m, hm⟩ := WithTop.ne_top_iff_exists.mp (List.minimum_ne_top_of_ne_nil hne)
  obtain ⟨hmem, hbound⟩ := List.minimum_eq_coe_iff.mp hm.symm
  rw [← hm]
  symm
  rw [List.minimum_eq_coe_iff]
  exact ⟨(h m).mp hmem, fun a ha => hbound a ((h a).mpr ha)⟩

theorem rotationsList_ne_nil {s : List Char} (hs : s ≠ []) :
    rotationsList s ≠ [] := by
  unfold rotationsList
  simp [List.length_pos.mpr hs, hs]

/-- `C8`: for every non-empty string, `get_cyclic_equivalent` returns a
value `m` that is a rotation of the input and lexicographically least
among all its rotations; applying `get_cyclic_equivalent` to `m` again
returns `m` (idempotence), and every cyclic rotation of the input has
the same canonical value. -/
theorem C8_canonical_rotation (s : List Char) (hs : s ≠ []) :
    ∃ m : List Char,
      get_cyclic_equivalent s = (m : WithTop (List Char)) ∧
      get_cyclic_equivalent m = (m : WithTop (List Char)) ∧
      (∀ s', s.IsRotated s' →
        get_cyclic_equivalent s' = (m : WithTop (List Char))) ∧
      m ∈ rotationsList s ∧ (∀ u ∈ rotationsList s, m ≤ u) := by
  obtain ⟨m, hm⟩ := WithTop.ne_top_iff_exists.mp
    (List.minimum_ne_top_of_ne_nil (rotationsList_ne_nil hs))
  have hm' : get_cyclic_equivalent s = (m : WithTop (List Char)) := hm.symm
  obtain ⟨hmem, hbound⟩ := List.minimum_eq_coe_iff.mp hm.symm
  have hrotinv : ∀ s', s.IsRotated s' →
      get_cyclic_equivalent s' = (m : WithTop (List Char)) := by
    intro s' hrot
    have hs' : s' ≠ [] := by
      intro hnil
      exact hs (by simpa [hnil] using hrot.perm.length_eq)
    have hiff : ∀ x, x ∈ rotationsList s' ↔ x ∈ rotationsList s := by
      intro x
      rw [mem_rotationsList_iff hs', mem_rotationsList_iff hs]
      constructor
      · exact fun hx => hrot.trans hx
      · exact fun hx => hrot.symm.trans hx
    unfold get_cyclic_equivalent
    rw [minimum_eq_of_mem_iff (rotationsList_ne_nil hs') hiff]
    exact hm'
  refine ⟨m, hm', ?_, hrotinv, hmem, hbound⟩
  exact hrotinv m ((mem_rotationsList_iff hs).mp hmem)

theorem C8_witness :
    (['b', 'a'] : List Char) ≠ [] ∧
      ∃ m : List Char,
        get_cyclic_equivalent ['b', 'a'] = (m : WithTop (List Char)) ∧
        get_cyclic_equivalent m = (m : WithTop (List Char)) ∧
        (∀ s', (['b', 'a'] : List Char).IsRotated s' →
          get_cyclic_equivalent s' = (m : WithTop (List Char))) ∧
        m ∈ rotationsList ['b', 'a'] ∧
        (∀ u ∈ rotationsList ['b', 'a'], m ≤ u) :=
  ⟨by decide, C8_canonical_rotation ['b', 'a'] (by decide)⟩

/-! ### Claim C10 — canonicalization of the empty string -/

/-- `C10`: `get_cyclic_equivalent` on the empty string takes `min` of an
empty sequence of rotations, which raises `ValueError` in Python; in the
model the result is `⊤`, i.e. no string value is returned, so the
utility is a total function only on non-empty strings. -/
theorem C10_empty_string_error : get_cyclic_equivalent [] = ⊤ := by
  simp [get_cyclic_equivalent, rotationsList, List.minimum_nil]

/-! ### Claim C9 — effect of the allow_intersections flag -/

/-- Unfolding equation for `tracks_for_split` with its `let` bindings
expanded. -/
theorem tracks_for_split_eq (C : Config) (siOracle : List (Q3 × Q3) → Bool)
    (allow_intersections : Bool) (maximum_number_of_tracks : ℤ)
    (number_of_straight_sections : ℤ) (starting_sequence : List Char)
    (number_of_right_sections number_of_left_sections : ℤ) :
    tracks_for_split C siOracle allow_intersections maximum_number_of_tracks
      number_of_straight_sections starting_sequence
      number_of_right_sections number_of_left_sections =
    if number_of_right_sections - (starting_sequence.count 'R' : ℤ) < 0 ∨
        number_of_left_sections - (starting_sequence.count 'L' : ℤ) < 0 ∨
        number_of_straight_sections - (starting_sequence.count 'S' : ℤ) < 0 then
      []
    else
      backtrack
        ⟨C, allow_intersections, maximum_number_of_tracks, siOracle,
          turnRunForbidden number_of_right_sections number_of_left_sections,
          straightRunForbidden number_of_straight_sections⟩
        ((number_of_right_sections - (starting_sequence.count 'R' : ℤ)).toNat +
          (number_of_left_sections - (starting_sequence.count 'L' : ℤ)).toNat +
          (number_of_straight_sections -
            (starting_sequence.count 'S' : ℤ)).toNat + 1)
        starting_sequence
        (number_of_right_sections - (starting_sequence.count 'R' : ℤ))
        (number_of_left_sections - (starting_sequence.count 'L' : ℤ))
        (number_of_straight_sections - (starting_sequence.count 'S' : ℤ))
        [] := rfl

set_option maxRecDepth 1000000 in
set_option maxHeartbeats 0 in
/-- Claim C9 counterexample: under the default geometry with result cap
2, straight budget 0, empty starting sequence and turn budgets 10 right
and 4 left, the layout `RRRRLRRRRL` is in the result set of the run
with `allow_intersections = false` but not in that of the run with
`allow_intersections = true` on identical inputs.  The permissive run
also accepts completed sequences that fail the geometry checks: it
records `RRRRRLLRRRRRLL` (a lap that revisits a vertex, so both
geometry checks fail with a duplicate point at distance `0`), reaches
the result cap of 2, and stops before `RRRRLRRRRL` is visited, while
the strict run passes over the geometry-failed lap and records
`RRRRLRRRRL`.  So the claimed superset relation fails.  Every lap
completion in either search trace is a net `-2π` lap (`RRRRRR`,
`RRRRRLLRRRRRLL`, `RRRRLRRRRL`), whose floating-point orientation in
the original program lands at or just above `-2π` (residues after the
`mod 2π` of `8.9e-16`, `0` and `8.9e-16` respectively), so the
program's orientation test accepts exactly the laps this model
accepts; the distance margins are `3e-16` against tolerance `0.05`
for the completions and exactly `0` or at least `0.3` against
threshold `0.207` for the pairwise-distance checks. -/
theorem C9_counterexample_cap_cut :
    "RRRRLRRRRL".toList ∈
      tracks_for_split defaultConfig check_self_intersection false 2 0
        [] 10 4 ∧
    "RRRRLRRRRL".toList ∉
      tracks_for_split defaultConfig check_self_intersection true 2 0
        [] 10 4 := by
  constructor
  · with_unfolding_all decide
  · with_unfolding_all decide

/-- Claim C9 amended: the superset relation between the
`allow_intersections = true` and `allow_intersections = false` searches
of one split holds whenever neither run reaches the result cap,
provided the self-intersection oracle is monotone under extension of
the polyline (an intersection once present never disappears when
further vertices are appended, as holds for the `is_simple` test).
Below the cap, every completed sequence the strict run accepts is
accepted by the permissive run, and every completed sequence the strict
run rejects on geometry roots a subtree that contributes nothing to the
strict run's results. -/
theorem C9_amended_superset_below_cap (C : Config)
    (siOracle : List (Q3 × Q3) → Bool)
    (maximum_number_of_tracks number_of_straight_sections : ℤ)
    (starting_sequence : List Char)
    (number_of_right_sections number_of_left_sections : ℤ)
    (hmono : ∀ p q : List (Q3 × Q3), p <+: q →
      siOracle p = false → siOracle q = false)
    (hcapF : ((tracks_for_split C siOracle false maximum_number_of_tracks
        number_of_straight_sections starting_sequence
        number_of_right_sections number_of_left_sections).length : ℤ) <
      maximum_number_of_tracks)
    (hcapT : ((tracks_for_split C siOracle true maximum_number_of_tracks
        number_of_straight_sections starting_sequence
        number_of_right_sections number_of_left_sections).length : ℤ) <
      maximum_number_of_tracks) :
    ∀ x ∈ tracks_for_split C siOracle false maximum_number_of_tracks
        number_of_straight_sections starting_sequence
        number_of_right_sections number_of_left_sections,
      x ∈ tracks_for_split C siOracle true maximum_number_of_tracks
        number_of_straight_sections starting_sequence
        number_of_right_sections number_of_left_sections := by
  intro x hx
  rw [tracks_for_split_eq] at hx hcapF hcapT ⊢
  by_cases hfeas :
      number_of_right_sections - (starting_sequence.count 'R' : ℤ) < 0 ∨
      number_of_left_sections - (starting_sequence.count 'L' : ℤ) < 0 ∨
      number_of_straight_sections - (starting_sequence.count 'S' : ℤ) < 0
  · rw [if_pos hfeas] at hx
    cases hx
  · rw [if_neg hfeas] at hx hcapF hcapT ⊢
    have h1 := (backtrack_eq_nocap _ _ _ _ _ _ _ hcapF x).mp hx
    have h2 := h1.resolve_left (List.not_mem_nil x)
    have h3 := backtrackNC_superset
      ⟨C, false, maximum_number_of_tracks, siOracle,
        turnRunForbidden number_of_right_sections number_of_left_sections,
        straightRunForbidden number_of_straight_sections⟩
      rfl hmono _ _ _ _ _ x h2
    exact (backtrack_eq_nocap _ _ _ _ _ _ _ hcapT x).mpr (Or.inr h3)

/-- Witness for the amended C9 statement at the default geometry with
the always-passing oracle, result cap 10, straight budget 0, starting
sequence `RRRRR` and split `(10, 1)`: both runs stay below the cap and
the layout `RRRRRR` accepted by the strict run is accepted by the
permissive one. -/
theorem C9_amended_witness :
    ((tracks_for_split defaultConfig (fun _ => true) false 10 0
        "RRRRR".toList 10 1).length : ℤ) < 10 ∧
    ((tracks_for_split defaultConfig (fun _ => true) true 10 0
        "RRRRR".toList 10 1).length : ℤ) < 10 ∧
    "RRRRRR".toList ∈ tracks_for_split defaultConfig (fun _ => true) false
      10 0 "RRRRR".toList 10 1 ∧
    "RRRRRR".toList ∈ tracks_for_split defaultConfig (fun _ => true) true
      10 0 "RRRRR".toList 10 1 :=
  ⟨by with_unfolding_all decide, by with_unfolding_all decide,
   by with_unfolding_all decide,
   C9_amended_superset_below_cap defaultConfig (fun _ => true) 10 0
     "RRRRR".toList 10 1
     (fun p q hpq h => Bool.noConfusion h)
     (by with_unfolding_all decide) (by with_unfolding_all decide)
     "RRRRRR".toList (by with_unfolding_all decide)⟩

end Carrera
